import Mathlib

/-!
Shallow embedding of src/bcrypt/bcrypt.py.

Strings are modelled as lists of byte values (ASCII codes, `List Nat`);
raw byte data is likewise `List Nat` with entries below 256.
Character codes used throughout: 36 is the dollar sign, 43 plus, 45 minus,
46 dot, 47 slash, 48..57 the digits, 50 the digit 2, 61 the equals sign,
65..90 upper-case letters, 97..122 lower-case letters.

A Python exception is modelled as `BResult.error` with a tag naming the
validation failure (the source raises ValueError with distinct messages;
the tags follow the taxonomy of the specification).
-/

/-- Error taxonomy for the driver.  `malformed` models the ValueError that
Python raises on a failed tuple unpacking or a non-numeric int() argument;
`nameError` models the NameError raised at the line `bf = EksBlowfish()`,
since only `Blowfish` is imported and no name `EksBlowfish` exists. -/
inductive BErr where
  | malformed
  | unsupportedVersion
  | invalidCost
  | invalidSaltLength
  | invalidEncoding
  | nameError
deriving DecidableEq

/-- Result of a driver call: a produced string or a raised exception. -/
inductive BResult where
  | ok (hash : List Nat)
  | error (e : BErr)
deriving DecidableEq

/-- The character table used by `base64.b64encode(data, altchars)` with
altchars dot-slash, as called in `_b64_encode` (line 189): the standard
base64 ordering A-Z, a-z, 0-9 for values 0..61, with value 62 mapped to
dot (46) and value 63 mapped to slash (47) by the altchars substitution. -/
def b64chr (i : Nat) : Nat :=
  if i < 26 then 65 + i
  else if i < 52 then 97 + (i - 26)
  else if i < 62 then 48 + (i - 52)
  else if i = 62 then 46
  else 47

/-- Inverse character table used by `base64.b64decode(data, altchars)` with
altchars dot-slash, as called in `_b64_decode` (line 199).  `none` on a
character outside the alphabet. -/
def b64val (c : Nat) : Option Nat :=
  if 65 ≤ c ∧ c ≤ 90 then some (c - 65)
  else if 97 ≤ c ∧ c ≤ 122 then some (c - 97 + 26)
  else if 48 ≤ c ∧ c ≤ 57 then some (c - 48 + 52)
  else if c = 46 then some 62
  else if c = 47 then some 63
  else none

/-- `_b64_encode` (lines 183-189): `base64.b64encode(data, './').rstrip('=')`.
Groups of three bytes become four characters; a final group of one or two
bytes becomes two or three characters, the padding having been stripped. -/
def _b64_encode : List Nat → List Nat
  | [] => []
  | [a] => [b64chr (a / 4), b64chr (a % 4 * 16)]
  | [a, b] => [b64chr (a / 4), b64chr (a % 4 * 16 + b / 16), b64chr (b % 16 * 4)]
  | a :: b :: c :: rest =>
      b64chr (a / 4) :: b64chr (a % 4 * 16 + b / 16) ::
      b64chr (b % 16 * 4 + c / 64) :: b64chr (c % 64) :: _b64_encode rest

/-- Group-wise base64 decoding: a full group of four characters yields
three bytes; a final group of two or three characters yields one or two
bytes; `none` on a character outside the alphabet or on a length congruent
to one modulo four.  This is not itself the model of any source function:
it is the closed form that `_b64_decode` (the faithful model of lines
192-199, below) provably satisfies when every character of the input is in
the alphabet, and the lemmas about it transfer along `a2b_valid_eq`. -/
def b64DecodeGroups : List Nat → Option (List Nat)
  | [] => some []
  | [c1, c2] =>
      match b64val c1, b64val c2 with
      | some a, some b => some [a * 4 + b / 16]
      | _, _ => none
  | [c1, c2, c3] =>
      match b64val c1, b64val c2, b64val c3 with
      | some a, some b, some c => some [a * 4 + b / 16, b % 16 * 16 + c / 4]
      | _, _, _ => none
  | c1 :: c2 :: c3 :: c4 :: rest =>
      match b64val c1, b64val c2, b64val c3, b64val c4, b64DecodeGroups rest with
      | some a, some b, some c, some d, some bs =>
          some ((a * 4 + b / 16) :: (b % 16 * 16 + c / 4) :: (c % 4 * 64 + d) :: bs)
      | _, _, _, _, _ => none
  | [_] => none

theorem b64val_b64chr (s : Nat) (h : s < 64) : b64val (b64chr s) = some s :=
  (by decide : ∀ i : Fin 64, b64val (b64chr i.1) = some i.1) ⟨s, h⟩

/-- Length of the encoded form: four characters per three bytes, a final
partial group of r bytes contributing r + 1 characters. -/
theorem _b64_encode_length : ∀ l : List Nat,
    (_b64_encode l).length =
      l.length / 3 * 4 + (if l.length % 3 = 0 then 0 else l.length % 3 + 1)
  | [] => rfl
  | [_] => by simp [_b64_encode]
  | [_, _] => by simp [_b64_encode]
  | a :: b :: c :: rest => by
      have ih := _b64_encode_length rest
      simp only [_b64_encode, List.length_cons] at ih ⊢
      rw [ih]
      split <;> split <;> omega

/-- Decoding round-trips encoding on byte data (values below 256). -/
theorem b64_roundtrip_aux : ∀ l : List Nat, (∀ x ∈ l, x < 256) →
    b64DecodeGroups (_b64_encode l) = some l
  | [], _ => rfl
  | [a], h => by
      have ha : a < 256 := h a (by simp)
      simp only [_b64_encode, b64DecodeGroups]
      rw [b64val_b64chr (a / 4) (by omega), b64val_b64chr (a % 4 * 16) (by omega)]
      simp only [Option.some.injEq, List.cons.injEq, and_true]
      omega
  | [a, b], h => by
      have ha : a < 256 := h a (by simp)
      have hb : b < 256 := h b (by simp)
      simp only [_b64_encode, b64DecodeGroups]
      rw [b64val_b64chr (a / 4) (by omega),
        b64val_b64chr (a % 4 * 16 + b / 16) (by omega),
        b64val_b64chr (b % 16 * 4) (by omega)]
      simp only [Option.some.injEq, List.cons.injEq, and_true]
      omega
  | a :: b :: c :: rest, h => by
      have ha : a < 256 := h a (by simp)
      have hb : b < 256 := h b (by simp)
      have hc : c < 256 := h c (by simp)
      have ih := b64_roundtrip_aux rest (fun x hx => h x (by simp [hx]))
      simp only [_b64_encode, b64DecodeGroups]
      rw [b64val_b64chr (a / 4) (by omega),
        b64val_b64chr (a % 4 * 16 + b / 16) (by omega),
        b64val_b64chr (b % 16 * 4 + c / 64) (by omega),
        b64val_b64chr (c % 64) (by omega), ih]
      simp only [Option.some.injEq, List.cons.injEq, and_true]
      refine ⟨by omega, by omega, by omega⟩

/-- The dollar sign is outside the base64 alphabet. -/
theorem b64val_dollar : b64val 36 = none := rfl

/-- A successful decode determines the byte count from the character count
(three bytes per four characters, rounded the way the integer expression
`len * 3 / 4` rounds), and the input cannot contain a dollar sign (36),
which is outside the alphabet. -/
theorem b64DecodeGroups_facts : ∀ s bs : List Nat, b64DecodeGroups s = some bs →
    bs.length = s.length * 3 / 4 ∧ 36 ∉ s
  | [], bs, h => by
      simp only [b64DecodeGroups, Option.some.injEq] at h
      subst h
      simp
  | [c1], bs, h => by
      simp only [b64DecodeGroups] at h
      exact absurd h (by simp)
  | [c1, c2], bs, h => by
      simp only [b64DecodeGroups] at h
      cases hv1 : b64val c1 with
      | none => rw [hv1] at h; exact absurd h (by simp)
      | some a =>
        cases hv2 : b64val c2 with
        | none => rw [hv1, hv2] at h; exact absurd h (by simp)
        | some b =>
          rw [hv1, hv2] at h
          simp only [Option.some.injEq] at h
          subst h
          refine ⟨by simp, ?_⟩
          intro hmem
          rcases List.mem_pair.mp hmem with h36 | h36 <;> subst h36
          · rw [b64val_dollar] at hv1; exact Option.noConfusion hv1
          · rw [b64val_dollar] at hv2; exact Option.noConfusion hv2
  | [c1, c2, c3], bs, h => by
      simp only [b64DecodeGroups] at h
      cases hv1 : b64val c1 with
      | none => rw [hv1] at h; exact absurd h (by simp)
      | some a =>
        cases hv2 : b64val c2 with
        | none => rw [hv1, hv2] at h; exact absurd h (by simp)
        | some b =>
          cases hv3 : b64val c3 with
          | none => rw [hv1, hv2, hv3] at h; exact absurd h (by simp)
          | some c =>
            rw [hv1, hv2, hv3] at h
            simp only [Option.some.injEq] at h
            subst h
            refine ⟨by simp, ?_⟩
            intro hmem
            simp only [List.mem_cons, List.not_mem_nil, or_false] at hmem
            rcases hmem with h36 | h36 | h36 <;> subst h36
            · rw [b64val_dollar] at hv1; exact Option.noConfusion hv1
            · rw [b64val_dollar] at hv2; exact Option.noConfusion hv2
            · rw [b64val_dollar] at hv3; exact Option.noConfusion hv3
  | c1 :: c2 :: c3 :: c4 :: rest, bs, h => by
      simp only [b64DecodeGroups] at h
      cases hv1 : b64val c1 with
      | none => rw [hv1] at h; exact absurd h (by simp)
      | some a =>
        cases hv2 : b64val c2 with
        | none => rw [hv1, hv2] at h; exact absurd h (by simp)
        | some b =>
          cases hv3 : b64val c3 with
          | none => rw [hv1, hv2, hv3] at h; exact absurd h (by simp)
          | some c =>
            cases hv4 : b64val c4 with
            | none => rw [hv1, hv2, hv3, hv4] at h; exact absurd h (by simp)
            | some d =>
              cases hrest : b64DecodeGroups rest with
              | none => rw [hv1, hv2, hv3, hv4, hrest] at h; exact absurd h (by simp)
              | some tl =>
                rw [hv1, hv2, hv3, hv4, hrest] at h
                simp only [Option.some.injEq] at h
                subst h
                obtain ⟨hlen, h36⟩ := b64DecodeGroups_facts rest tl hrest
                constructor
                · simp only [List.length_cons, hlen]
                  omega
                · intro hmem
                  simp only [List.mem_cons] at hmem
                  rcases hmem with h' | h' | h' | h' | h'
                  · subst h'; rw [b64val_dollar] at hv1; exact Option.noConfusion hv1
                  · subst h'; rw [b64val_dollar] at hv2; exact Option.noConfusion hv2
                  · subst h'; rw [b64val_dollar] at hv3; exact Option.noConfusion hv3
                  · subst h'; rw [b64val_dollar] at hv4; exact Option.noConfusion hv4
                  · exact h36 h'

/-- The equals sign (61) is outside the alphabet table proper. -/
theorem b64val_pad : b64val 61 = none := rfl

/-- The lookahead `binascii_find_valid`: the first character that the
base64 table accepts, the pad character included; whitespace and other
out-of-alphabet characters are passed over. -/
def nextValid : List Nat → Option Nat
  | [] => none
  | c :: rest => if c = 61 ∨ (b64val c).isSome then some c else nextValid rest

/-- `binascii.a2b_base64`, the decoder that `base64.b64decode` calls:
characters outside the alphabet are silently discarded; a pad character
(61) is ignored at quad positions 0 and 1, and at position 2 unless the
next accepted character is another pad; a pad at position 3, or a pad pair
at position 2, ends the input, keeping the bytes already produced; at the
true end of input any leftover bits (quad position not 0) are the
"Incorrect padding" error, modelled `none`.  `quad_pos` counts accepted
sextets modulo 4 and `leftchar` holds the pending high bits. -/
def a2b_base64 : List Nat → Nat → Nat → Option (List Nat)
  | [], quad_pos, _leftchar => if quad_pos = 0 then some [] else none
  | c :: rest, quad_pos, leftchar =>
    if c = 61 then
      if quad_pos < 2 then a2b_base64 rest quad_pos leftchar
      else if quad_pos = 2 then
        if nextValid rest = some 61 then some []
        else a2b_base64 rest quad_pos leftchar
      else some []
    else
      match b64val c with
      | none => a2b_base64 rest quad_pos leftchar
      | some v =>
        if quad_pos = 0 then a2b_base64 rest 1 v
        else if quad_pos = 1 then
          (a2b_base64 rest 2 (v % 16)).map fun bs => (leftchar * 4 + v / 16) :: bs
        else if quad_pos = 2 then
          (a2b_base64 rest 3 (v % 4)).map fun bs => (leftchar * 16 + v / 4) :: bs
        else (a2b_base64 rest 0 0).map fun bs => (leftchar * 64 + v) :: bs

/-- `_b64_decode` (lines 192-199): appends the padding the encoder
stripped (`'=' * (4 - len % 4)` when the length is not a multiple of
four, computed on the raw character count) and calls
`base64.b64decode(data, './')`, i.e. `a2b_base64` from quad position 0. -/
def _b64_decode (data : List Nat) : Option (List Nat) :=
  a2b_base64 (data ++ List.replicate ((4 - data.length % 4) % 4) 61) 0 0

theorem a2b_step0 (c : Nat) (rest : List Nat) (v left : Nat)
    (hv : b64val c = some v) :
    a2b_base64 (c :: rest) 0 left = a2b_base64 rest 1 v := by
  have hne : c ≠ 61 := by
    intro h; subst h; rw [b64val_pad] at hv; exact Option.noConfusion hv
  simp [a2b_base64, hne, hv]

theorem a2b_step1 (c : Nat) (rest : List Nat) (v left : Nat)
    (hv : b64val c = some v) :
    a2b_base64 (c :: rest) 1 left =
      (a2b_base64 rest 2 (v % 16)).map fun bs => (left * 4 + v / 16) :: bs := by
  have hne : c ≠ 61 := by
    intro h; subst h; rw [b64val_pad] at hv; exact Option.noConfusion hv
  simp [a2b_base64, hne, hv]

theorem a2b_step2 (c : Nat) (rest : List Nat) (v left : Nat)
    (hv : b64val c = some v) :
    a2b_base64 (c :: rest) 2 left =
      (a2b_base64 rest 3 (v % 4)).map fun bs => (left * 16 + v / 4) :: bs := by
  have hne : c ≠ 61 := by
    intro h; subst h; rw [b64val_pad] at hv; exact Option.noConfusion hv
  simp [a2b_base64, hne, hv]

theorem a2b_step3 (c : Nat) (rest : List Nat) (v left : Nat)
    (hv : b64val c = some v) :
    a2b_base64 (c :: rest) 3 left =
      (a2b_base64 rest 0 0).map fun bs => (left * 64 + v) :: bs := by
  have hne : c ≠ 61 := by
    intro h; subst h; rw [b64val_pad] at hv; exact Option.noConfusion hv
  simp [a2b_base64, hne, hv]

theorem a2b_pad_skip (rest : List Nat) (quad left : Nat) (hq : quad < 2) :
    a2b_base64 (61 :: rest) quad left = a2b_base64 rest quad left := by
  simp [a2b_base64, hq]

theorem a2b_pad2_term (rest : List Nat) (left : Nat)
    (hnv : nextValid rest = some 61) :
    a2b_base64 (61 :: rest) 2 left = some [] := by
  simp [a2b_base64, hnv]

theorem a2b_pad3_term (rest : List Nat) (left : Nat) :
    a2b_base64 (61 :: rest) 3 left = some [] := by
  simp [a2b_base64]

/-- On input lying entirely in the alphabet, the faithful decoder agrees
with the group-wise closed form: the appended padding either completes
the final partial group (two or three leftover characters) or, for a
leftover of one character, is ignored at quad position 1 and the leftover
bits surface as the incorrect-padding error. -/
theorem a2b_valid_eq : ∀ s : List Nat, (∀ c ∈ s, (b64val c).isSome) →
    _b64_decode s = b64DecodeGroups s
  | [], _ => rfl
  | [c1], h => by
      obtain ⟨v1, hv1⟩ := Option.isSome_iff_exists.mp (h c1 (by simp))
      show a2b_base64 [c1, 61, 61, 61] 0 0 = b64DecodeGroups [c1]
      rw [a2b_step0 c1 _ v1 0 hv1, a2b_pad_skip _ _ _ (by omega),
        a2b_pad_skip _ _ _ (by omega), a2b_pad_skip _ _ _ (by omega)]
      simp [a2b_base64, b64DecodeGroups]
  | [c1, c2], h => by
      obtain ⟨v1, hv1⟩ := Option.isSome_iff_exists.mp (h c1 (by simp))
      obtain ⟨v2, hv2⟩ := Option.isSome_iff_exists.mp (h c2 (by simp))
      show a2b_base64 [c1, c2, 61, 61] 0 0 = b64DecodeGroups [c1, c2]
      rw [a2b_step0 c1 _ v1 0 hv1, a2b_step1 c2 _ v2 v1 hv2,
        a2b_pad2_term _ _ (by rfl)]
      simp [b64DecodeGroups, hv1, hv2]
  | [c1, c2, c3], h => by
      obtain ⟨v1, hv1⟩ := Option.isSome_iff_exists.mp (h c1 (by simp))
      obtain ⟨v2, hv2⟩ := Option.isSome_iff_exists.mp (h c2 (by simp))
      obtain ⟨v3, hv3⟩ := Option.isSome_iff_exists.mp (h c3 (by simp))
      show a2b_base64 [c1, c2, c3, 61] 0 0 = b64DecodeGroups [c1, c2, c3]
      rw [a2b_step0 c1 _ v1 0 hv1, a2b_step1 c2 _ v2 v1 hv2,
        a2b_step2 c3 _ v3 (v2 % 16) hv3, a2b_pad3_term]
      simp [b64DecodeGroups, hv1, hv2, hv3]
  | c1 :: c2 :: c3 :: c4 :: rest, h => by
      obtain ⟨v1, hv1⟩ := Option.isSome_iff_exists.mp (h c1 (by simp))
      obtain ⟨v2, hv2⟩ := Option.isSome_iff_exists.mp (h c2 (by simp))
      obtain ⟨v3, hv3⟩ := Option.isSome_iff_exists.mp (h c3 (by simp))
      obtain ⟨v4, hv4⟩ := Option.isSome_iff_exists.mp (h c4 (by simp))
      have ih := a2b_valid_eq rest (fun x hx => h x (by simp [hx]))
      have hpad : (4 - (c1 :: c2 :: c3 :: c4 :: rest).length % 4) % 4
          = (4 - rest.length % 4) % 4 := by
        simp only [List.length_cons]
        omega
      unfold _b64_decode
      rw [hpad]
      show a2b_base64
          (c1 :: c2 :: c3 :: c4 ::
            (rest ++ List.replicate ((4 - rest.length % 4) % 4) 61)) 0 0
        = b64DecodeGroups (c1 :: c2 :: c3 :: c4 :: rest)
      rw [a2b_step0 c1 _ v1 0 hv1, a2b_step1 c2 _ v2 v1 hv2,
        a2b_step2 c3 _ v3 (v2 % 16) hv3, a2b_step3 c4 _ v4 (v3 % 4) hv4]
      rw [show a2b_base64 (rest ++ List.replicate ((4 - rest.length % 4) % 4) 61) 0 0
          = _b64_decode rest from rfl, ih]
      simp only [b64DecodeGroups, hv1, hv2, hv3, hv4]
      cases hr : b64DecodeGroups rest with
      | none => simp
      | some tl => simp

/-- Every character the encoder emits is in the alphabet. -/
theorem encode_chars_valid : ∀ l : List Nat, (∀ x ∈ l, x < 256) →
    ∀ c ∈ _b64_encode l, (b64val c).isSome
  | [], _ => by simp [_b64_encode]
  | [a], h => by
      have ha : a < 256 := h a (by simp)
      intro c hc
      simp only [_b64_encode, List.mem_cons, List.not_mem_nil, or_false] at hc
      rcases hc with h' | h' <;> subst h' <;>
        rw [b64val_b64chr _ (by omega)] <;> simp
  | [a, b], h => by
      have ha : a < 256 := h a (by simp)
      have hb : b < 256 := h b (by simp)
      intro c hc
      simp only [_b64_encode, List.mem_cons, List.not_mem_nil, or_false] at hc
      rcases hc with h' | h' | h' <;> subst h' <;>
        rw [b64val_b64chr _ (by omega)] <;> simp
  | a :: b :: c :: rest, h => by
      have ha : a < 256 := h a (by simp)
      have hb : b < 256 := h b (by simp)
      have hc : c < 256 := h c (by simp)
      have ih := encode_chars_valid rest (fun x hx => h x (by simp [hx]))
      intro d hd
      simp only [_b64_encode, List.mem_cons] at hd
      rcases hd with h' | h' | h' | h' | h'
      · subst h'; rw [b64val_b64chr _ (by omega)]; simp
      · subst h'; rw [b64val_b64chr _ (by omega)]; simp
      · subst h'; rw [b64val_b64chr _ (by omega)]; simp
      · subst h'; rw [b64val_b64chr _ (by omega)]; simp
      · exact ih d h'

/-- Python str.split on the dollar sign (36), as used at line 59:
`salt.split(chr(36))`.  Always returns a nonempty list of segments. -/
def splitD : List Nat → List (List Nat)
  | [] => [[]]
  | c :: rest =>
    if c = 36 then [] :: splitD rest
    else
      match splitD rest with
      | [] => [[c]]
      | g :: gs => (c :: g) :: gs

theorem splitD_append (v l : List Nat) (hv : 36 ∉ v) :
    splitD (v ++ 36 :: l) = v :: splitD l := by
  induction v with
  | nil => simp [splitD]
  | cons a v ih =>
    have ha : a ≠ 36 := fun h => hv (by simp [h])
    have ih := ih (fun h => hv (by simp [h]))
    simp only [List.cons_append, splitD, ha, if_false, List.append_eq]
    rw [ih]

theorem splitD_no_dollar (s : List Nat) (hs : 36 ∉ s) : splitD s = [s] := by
  induction s with
  | nil => rfl
  | cons a s ih =>
    have ha : a ≠ 36 := fun h => hs (by simp [h])
    have ih := ih (fun h => hs (by simp [h]))
    simp only [splitD, ha, if_false, ih]

/-- Builds the text `$ver$cost$seg` from its three segments; the form the
driver parses at line 59. -/
def mkSalt (ver cost seg : List Nat) : List Nat :=
  36 :: (ver ++ 36 :: (cost ++ 36 :: seg))

theorem splitD_mkSalt (ver cost seg : List Nat)
    (hv : 36 ∉ ver) (hc : 36 ∉ cost) (hs : 36 ∉ seg) :
    splitD (mkSalt ver cost seg) = [[], ver, cost, seg] := by
  show splitD (36 :: (ver ++ 36 :: (cost ++ 36 :: seg))) = [[], ver, cost, seg]
  have h1 : splitD (36 :: (ver ++ 36 :: (cost ++ 36 :: seg)))
      = [] :: splitD (ver ++ 36 :: (cost ++ 36 :: seg)) := by simp [splitD]
  rw [h1, splitD_append ver _ hv, splitD_append cost _ hc, splitD_no_dollar seg hs]

/-- One decimal digit, or `none`. -/
def digitVal (c : Nat) : Option Nat :=
  if 48 ≤ c ∧ c ≤ 57 then some (c - 48) else none

/-- Decimal digits folded left to right. -/
def parseDigitsAux : List Nat → Nat → Option Nat
  | [], acc => some acc
  | c :: rest, acc =>
    match digitVal c with
    | some d => parseDigitsAux rest (acc * 10 + d)
    | none => none

/-- Python int() on a string: an optional sign followed by at least one
decimal digit; `none` models the ValueError on anything else.  Used at
line 66: `n = int(log_rounds)`. -/
def parseInt (l : List Nat) : Option Int :=
  match l with
  | [] => none
  | c :: rest =>
    if c = 45 then
      if rest = [] then none else (parseDigitsAux rest 0).map fun m => -(m : Int)
    else if c = 43 then
      if rest = [] then none else (parseDigitsAux rest 0).map fun m => (m : Int)
    else (parseDigitsAux (c :: rest) 0).map fun m => (m : Int)

theorem parseDigitsAux_no_dollar : ∀ (l : List Nat) (acc m : Nat),
    parseDigitsAux l acc = some m → 36 ∉ l
  | [], _, _, _ => by simp
  | c :: rest, acc, m, h => by
    simp only [parseDigitsAux] at h
    cases hd : digitVal c with
    | none => rw [hd] at h; exact absurd h (by simp)
    | some d =>
      rw [hd] at h
      have htail := parseDigitsAux_no_dollar rest _ _ h
      intro hmem
      rcases List.mem_cons.mp hmem with h' | h'
      · subst h'; exact absurd hd (by simp [digitVal])
      · exact htail h'

theorem parseInt_no_dollar (l : List Nat) (n : Int) (h : parseInt l = some n) :
    36 ∉ l := by
  match l with
  | [] => simp
  | c :: rest =>
    simp only [parseInt] at h
    by_cases hc45 : c = 45
    · rw [if_pos hc45] at h
      by_cases hr : rest = []
      · rw [if_pos hr] at h; exact absurd h (by simp)
      · rw [if_neg hr] at h
        cases hp : parseDigitsAux rest 0 with
        | none => rw [hp] at h; exact absurd h (by simp)
        | some m =>
          have htail := parseDigitsAux_no_dollar rest 0 m hp
          intro hmem
          rcases List.mem_cons.mp hmem with h' | h'
          · exact absurd (h'.trans hc45) (by omega)
          · exact htail h'
    · rw [if_neg hc45] at h
      by_cases hc43 : c = 43
      · rw [if_pos hc43] at h
        by_cases hr : rest = []
        · rw [if_pos hr] at h; exact absurd h (by simp)
        · rw [if_neg hr] at h
          cases hp : parseDigitsAux rest 0 with
          | none => rw [hp] at h; exact absurd h (by simp)
          | some m =>
            have htail := parseDigitsAux_no_dollar rest 0 m hp
            intro hmem
            rcases List.mem_cons.mp hmem with h' | h'
            · exact absurd (h'.trans hc43) (by omega)
            · exact htail h'
      · rw [if_neg hc43] at h
        cases hp : parseDigitsAux (c :: rest) 0 with
        | none => rw [hp] at h; exact absurd h (by simp)
        | some m => exact parseDigitsAux_no_dollar (c :: rest) 0 m hp

/-- The body of `hashpw` (lines 47-100) after the split of the salt string,
applied to the three used segments `(hash_ver, log_rounds, b64salt)`.

Stage by stage, following the source order exactly:
1. line 60: `(major, minor) = tuple(hash_ver)` - a ValueError unless the
   version segment has exactly two characters;
2. line 62: `(major, minor) > BCRYPT_VERSION` with `BCRYPT_VERSION`
   equal to the pair of the characters 2 (50) and a (97), compared
   lexicographically as Python compares tuples of one-character strings;
3. line 66: `n = int(log_rounds)`;
4. lines 67-71: `n > 31 or n < 0` rejected, then `rounds = 1 << n` and
   `rounds < BCRYPT_MINROUNDS` (16) rejected;
5. line 74: `len(b64salt) * 3 / 4 != BCRYPT_SALTLEN` (16) rejected, the
   division being Python 2 floor division on integers;
6. line 78: `raw_salt = _b64_decode(b64salt)`;
7. line 82: `bf = EksBlowfish()` - the name `EksBlowfish` is not defined
   anywhere (line 27 imports only `Blowfish` from `lib.eksblowfish`), so
   execution stops here with a NameError on every input that reaches this
   line.  The subsequent lines 84-100 (the key schedule, the 64 encryption
   passes over the magic text, and the final concatenation) are dead code. -/
def hashpwChecked (hash_ver log_rounds b64salt : List Nat) : BResult :=
  match hash_ver with
  | [major, minor] =>
    if 50 < major ∨ (major = 50 ∧ 97 < minor) then .error .unsupportedVersion
    else
      match parseInt log_rounds with
      | none => .error .malformed
      | some n =>
        if 31 < n ∨ n < 0 then .error .invalidCost
        else if 1 <<< n.toNat < 16 then .error .invalidCost
        else if ¬ (b64salt.length * 3 / 4 = 16) then .error .invalidSaltLength
        else
          match _b64_decode b64salt with
          | none => .error .invalidEncoding
          | some _raw_salt => .error .nameError
  | _ => .error .malformed

/-- `hashpw(password, salt)` (lines 47-100).  Line 59 splits the salt
string on the dollar sign and unpacks exactly four segments, discarding
the first; any other segment count is a ValueError.  The password is
consumed only by the dead code after line 82 and therefore never affects
the result. -/
def hashpw (password salt : List Nat) : BResult :=
  match splitD salt with
  | [_, hash_ver, log_rounds, b64salt] => hashpwChecked hash_ver log_rounds b64salt
  | _ => .error .malformed

theorem hashpw_mkSalt (p ver cost seg : List Nat)
    (hv : 36 ∉ ver) (hc : 36 ∉ cost) (hs : 36 ∉ seg) :
    hashpw p (mkSalt ver cost seg) = hashpwChecked ver cost seg := by
  unfold hashpw
  rw [splitD_mkSalt ver cost seg hv hc hs]

/-- Every branch of the checked body is an error: no branch builds an
`ok` result, because the line that would start the real computation
references the undefined name `EksBlowfish`. -/
theorem hashpwChecked_never_ok (v c s : List Nat) :
    ∃ e, hashpwChecked v c s = BResult.error e := by
  unfold hashpwChecked
  repeat' split
  all_goals exact ⟨_, rfl⟩

/-- `{:02d}` formatting of the cost (line 176) for values 0..99: the tens
digit then the units digit. -/
def twoDigits (n : Int) : List Nat :=
  [48 + n.toNat / 10, 48 + n.toNat % 10]

/-- `_encode_salt(csalt, log_rounds)` (lines 162-180): validates the raw
salt length (16) and the cost range (4..31), then formats
`$2a$` followed by the zero-padded two-digit cost, a dollar sign, and the
encoded salt. -/
def _encode_salt (csalt : List Nat) (log_rounds : Int) : BResult :=
  if ¬ (csalt.length = 16) then .error .invalidSaltLength
  else if log_rounds < 4 ∨ 31 < log_rounds then .error .invalidCost
  else .ok ([36, 50, 97, 36] ++ twoDigits log_rounds ++ 36 :: _b64_encode csalt)

/-- The clamp `min(max(log_rounds, 4), 31)` applied at line 44. -/
def clampCost (log_rounds : Int) : Int :=
  min (max log_rounds 4) 31

/-- `gensalt(log_rounds)` (lines 37-44), with the sixteen bytes that
`os.urandom(16)` draws passed in as the `entropy` argument. -/
def gensalt (entropy : List Nat) (log_rounds : Int) : BResult :=
  _encode_salt entropy (clampCost log_rounds)

/-- One call made by the key-schedule code of `hashpw`. -/
inductive SchedOp where
  | expandKey
  | expandStateSalt
  | expandStatePassword
deriving DecidableEq

/-- The sequence of schedule calls written at lines 85-87 (dead code, see
`hashpwChecked`): `bf.expandkey(raw_salt, password)` once, then for each
of `rounds` iterations `bf.expandstate(0, raw_salt)` followed by
`bf.expandstate(0, password)`. -/
def scheduleTrace (rounds : Nat) : List SchedOp :=
  SchedOp.expandKey ::
    (List.replicate rounds [SchedOp.expandStateSalt, SchedOp.expandStatePassword]).flatten

/-- Modelled from the spec: the schedule protocol of section 4.2 and the
in-file C reference code, which run `expandkey(salt, password)` once and
then, in each of the `2^logRounds` iterations, expand with the password
first and with the salt second. -/
def specScheduleTrace (rounds : Nat) : List SchedOp :=
  SchedOp.expandKey ::
    (List.replicate rounds [SchedOp.expandStatePassword, SchedOp.expandStateSalt]).flatten

theorem one_shiftLeft_lt_16 (m : Nat) (h : m ≤ 3) : 1 <<< m < 16 := by
  rw [Nat.one_shiftLeft]
  have h8 : (2 : Nat) ^ 3 = 8 := by norm_num
  have := Nat.pow_le_pow_right (by omega : 1 ≤ 2) h
  omega

theorem one_shiftLeft_ge_16 (m : Nat) (h : 4 ≤ m) : 16 ≤ 1 <<< m := by
  rw [Nat.one_shiftLeft]
  have h16 : (2 : Nat) ^ 4 = 16 := by norm_num
  have := Nat.pow_le_pow_right (by omega : 1 ≤ 2) h
  omega

/-- Reduction of the checked body once the version segment is the pair
2 a (50, 97) and the cost segment parses. -/
theorem hashpwChecked_2a (cost seg : List Nat) (n : Int)
    (hparse : parseInt cost = some n) :
    hashpwChecked [50, 97] cost seg =
      (if 31 < n ∨ n < 0 then .error .invalidCost
       else if 1 <<< n.toNat < 16 then .error .invalidCost
       else if ¬ (seg.length * 3 / 4 = 16) then .error .invalidSaltLength
       else
         match _b64_decode seg with
         | none => .error .invalidEncoding
         | some _raw_salt => .error .nameError) := by
  unfold hashpwChecked
  rw [hparse]
  rfl

/-- Claim C5: with a well-formed version segment, the driver raises the
cost error exactly when the parsed cost lies outside 4..31 (values 32 and
above and negative values fail the direct bound check of line 67; values
0..3 fail the minimum-rounds check of line 70; values 4..31 pass both and
the driver proceeds to the later stages). -/
theorem hashpw_cost_validation (p cost seg : List Nat) (n : Int)
    (hparse : parseInt cost = some n) (hseg : 36 ∉ seg) :
    (hashpw p (mkSalt [50, 97] cost seg) = BResult.error BErr.invalidCost)
      ↔ ¬(4 ≤ n ∧ n ≤ 31) := by
  rw [hashpw_mkSalt p _ _ _ (by decide) (parseInt_no_dollar cost n hparse) hseg,
    hashpwChecked_2a cost seg n hparse]
  by_cases h1 : 31 < n ∨ n < 0
  · rw [if_pos h1]
    simp only [BResult.error.injEq, true_iff]
    omega
  · push_neg at h1
    rw [if_neg (by omega)]
    by_cases h2 : 1 <<< n.toNat < 16
    · rw [if_pos h2]
      have hn4 : n < 4 := by
        by_contra hge
        push_neg at hge
        have := one_shiftLeft_ge_16 n.toNat (by omega)
        omega
      simp only [BResult.error.injEq, true_iff]
      omega
    · rw [if_neg h2]
      have hn4 : 4 ≤ n := by
        by_contra hlt
        push_neg at hlt
        exact h2 (one_shiftLeft_lt_16 n.toNat (by omega))
      constructor
      · intro heq
        by_cases h3 : ¬ (seg.length * 3 / 4 = 16)
        · rw [if_pos h3] at heq
          simp at heq
        · rw [if_neg h3] at heq
          cases hdec : _b64_decode seg with
          | none => rw [hdec] at heq; simp at heq
          | some r => rw [hdec] at heq; simp at heq
      · intro hn
        omega

theorem hashpw_cost_validation_witness :
    parseInt [51, 50] = some 32 ∧ (36 : Nat) ∉ List.replicate 22 46 ∧
      ((hashpw [] (mkSalt [50, 97] [51, 50] (List.replicate 22 46))
          = BResult.error BErr.invalidCost)
        ↔ ¬(4 ≤ (32 : Int) ∧ (32 : Int) ≤ 31)) :=
  ⟨by decide, by decide,
    hashpw_cost_validation [] [51, 50] (List.replicate 22 46) 32 (by decide) (by decide)⟩

/-- Claim C6 (counter-evidence): the check of line 74 is on the encoded
character count, `len * 3 / 4 = 16`, not on the decoded byte count, and
`b64decode` silently discards characters outside the alphabet, so the two
disagree in both directions.  A 25-character segment of 22 dots and three
exclamation marks (33) decodes to exactly 16 raw bytes, yet
`25 * 3 / 4 = 18` makes the driver raise the salt-length error; a
22-character segment of 19 dots and three exclamation marks decodes to 14
raw bytes, yet `22 * 3 / 4 = 16` passes the check and the call proceeds to
the NameError of line 82. -/
theorem hashpw_salt_length_claim_counterexample :
    (_b64_decode (List.replicate 22 46 ++ [33, 33, 33])
        = some [251, 239, 190, 251, 239, 190, 251, 239, 190, 251, 239, 190,
            251, 239, 190, 251] ∧
      hashpw [] (mkSalt [50, 97] [48, 52] (List.replicate 22 46 ++ [33, 33, 33]))
        = BResult.error BErr.invalidSaltLength) ∧
    (_b64_decode (List.replicate 19 46 ++ [33, 33, 33])
        = some [251, 239, 190, 251, 239, 190, 251, 239, 190, 251, 239, 190,
            251, 239] ∧
      hashpw [] (mkSalt [50, 97] [48, 52] (List.replicate 19 46 ++ [33, 33, 33]))
        = BResult.error BErr.nameError) := by
  decide

/-- Claim C6 as amended: restricted to salt segments lying entirely in the
base64 alphabet - on which the discarding decoder and the group decoder
agree, and the decoded byte count is exactly `len * 3 / 4` - the driver
(version 2a, cost 04) raises the salt-length error exactly when the
segment does not decode to 16 raw bytes. -/
theorem hashpw_salt_length_validation (p seg bs : List Nat)
    (hvalid : ∀ c ∈ seg, (b64val c).isSome)
    (hdec : _b64_decode seg = some bs) :
    (hashpw p (mkSalt [50, 97] [48, 52] seg) = BResult.error BErr.invalidSaltLength)
      ↔ ¬(bs.length = 16) := by
  have hg : b64DecodeGroups seg = some bs := by
    rw [← a2b_valid_eq seg hvalid]; exact hdec
  obtain ⟨hlen, h36⟩ := b64DecodeGroups_facts seg bs hg
  rw [hashpw_mkSalt p _ _ _ (by decide) (by decide) h36,
    hashpwChecked_2a [48, 52] seg 4 (by decide)]
  rw [if_neg (by omega : ¬(31 < (4 : Int) ∨ (4 : Int) < 0)),
    if_neg (by decide : ¬(1 <<< (4 : Int).toNat < 16))]
  by_cases h3 : seg.length * 3 / 4 = 16
  · rw [if_neg (not_not_intro h3), hdec]
    have hbs : bs.length = 16 := by omega
    show BResult.error BErr.nameError = BResult.error BErr.invalidSaltLength
      ↔ ¬(bs.length = 16)
    simp [hbs]
  · rw [if_pos h3]
    simp only [BResult.error.injEq, true_iff]
    omega

theorem hashpw_salt_length_validation_witness :
    (∀ c ∈ List.replicate 20 46, (b64val c).isSome) ∧
      _b64_decode (List.replicate 20 46)
        = some [251, 239, 190, 251, 239, 190, 251, 239, 190, 251, 239, 190, 251, 239, 190] ∧
      ((hashpw [] (mkSalt [50, 97] [48, 52] (List.replicate 20 46))
          = BResult.error BErr.invalidSaltLength)
        ↔ ¬(([251, 239, 190, 251, 239, 190, 251, 239, 190, 251, 239, 190,
              251, 239, 190] : List Nat).length = 16)) :=
  ⟨by decide, by decide,
    hashpw_salt_length_validation [] (List.replicate 20 46) _ (by decide) (by decide)⟩

/-- Claim C7 (counter-evidence): the one-character version segment 2,
which appears in the example hash of the docstring of `hashpw` itself,
does not pass the version check: the tuple unpacking of line 60 requires
exactly two characters, so the call fails with a ValueError (modelled
`malformed`) instead of being accepted. -/
theorem hashpw_one_char_version_rejected :
    hashpw [] (mkSalt [50] [48, 52] (List.replicate 22 46))
      = BResult.error BErr.malformed := by
  decide

/-- Claim C4: decoding the encoding of any byte sequence of length at
most 64 returns exactly the original bytes. -/
theorem b64_roundtrip (l : List Nat) (hlen : l.length ≤ 64)
    (hbytes : ∀ x ∈ l, x < 256) :
    _b64_decode (_b64_encode l) = some l := by
  rw [a2b_valid_eq (_b64_encode l) (encode_chars_valid l hbytes)]
  exact b64_roundtrip_aux l hbytes

theorem b64_roundtrip_witness :
    ([0, 255, 7] : List Nat).length ≤ 64 ∧ (∀ x ∈ ([0, 255, 7] : List Nat), x < 256) ∧
      _b64_decode (_b64_encode [0, 255, 7]) = some [0, 255, 7] :=
  ⟨by decide, by decide, b64_roundtrip [0, 255, 7] (by decide) (by decide)⟩

/-- Claim C2 (counter-evidence): the encoder maps the byte 0 to two
letters A (code 65): the alphabet in use is the standard base64 ordering
A-Z, a-z, 0-9, dot, slash, because the altchars argument of
`base64.b64encode` only substitutes the characters for the values 62 and
63.  Under the bcrypt alphabet claimed by the spec the byte 0 would
encode as two dots (code 46), which here stand at position 62 instead. -/
theorem b64_encode_standard_alphabet :
    _b64_encode [0] = [65, 65] ∧ b64chr 0 = 65 ∧ b64chr 62 = 46 ∧ b64chr 63 = 47 := by
  decide

/-- Claim C1 (counter-evidence): line 99 packs and encodes all
`BCRYPT_BLOCKS * 4 = 24` ciphertext bytes, performing no truncation, so
the encoded segment would have 32 characters; dropping the last byte
first, as the spec (and the in-file C reference, which encodes
`4 * BCRYPT_BLOCKS - 1` bytes) prescribes, is what yields 31. -/
theorem hash_segment_length_without_truncation (ctext : List Nat)
    (h : ctext.length = 24) :
    (_b64_encode ctext).length = 32 ∧ (_b64_encode ctext.dropLast).length = 31 := by
  have h1 := _b64_encode_length ctext
  have h2 := _b64_encode_length ctext.dropLast
  rw [List.length_dropLast, h] at h2
  rw [h] at h1
  norm_num at h1 h2
  exact ⟨h1, h2⟩

theorem hash_segment_length_without_truncation_witness :
    (List.replicate 24 0).length = 24 ∧
      ((_b64_encode (List.replicate 24 0)).length = 32 ∧
        (_b64_encode (List.replicate 24 0).dropLast).length = 31) :=
  ⟨by decide, hash_segment_length_without_truncation (List.replicate 24 0) (by decide)⟩

/-- Claim C3 (counter-evidence): with cost 4 (16 rounds), the call right
after the single `expandkey` is the SALT expansion, whereas the protocol
of the spec and of the in-file C reference puts the PASSWORD expansion
there; the loop body of lines 86-87 has the two calls in swapped order.
The counts match the claim: one `expandkey` call and `2 * 2^4` calls to
`expandstate` in `2^4` iterations. -/
theorem schedule_salt_before_password :
    (scheduleTrace (1 <<< 4))[1]? = some SchedOp.expandStateSalt ∧
      (specScheduleTrace (1 <<< 4))[1]? = some SchedOp.expandStatePassword ∧
      (scheduleTrace (1 <<< 4)).length = 1 + 2 * (1 <<< 4) := by
  decide

theorem clampCost_eq (lr : Int) :
    clampCost lr = if lr < 4 then 4 else if 31 < lr then 31 else lr := by
  simp only [clampCost, min_def, max_def]
  split_ifs <;> omega

/-- Claim C8: for a sixteen-byte entropy draw, `gensalt` clamps the cost
into 4..31 (below 4 becomes 4, above 31 becomes 31, in-range values are
kept) and returns exactly the dollar sign, 2, a, dollar sign, the two
zero-padded cost digits, a dollar sign, and the 22-character encoding of
the sixteen salt bytes. -/
theorem gensalt_clamps_and_formats (entropy : List Nat) (lr : Int)
    (hlen : entropy.length = 16) :
    gensalt entropy lr =
        BResult.ok ([36, 50, 97, 36] ++ twoDigits (clampCost lr)
          ++ 36 :: _b64_encode entropy) ∧
      4 ≤ clampCost lr ∧ clampCost lr ≤ 31 ∧
      (lr < 4 → clampCost lr = 4) ∧ (31 < lr → clampCost lr = 31) ∧
      (4 ≤ lr → lr ≤ 31 → clampCost lr = lr) ∧
      (twoDigits (clampCost lr)).length = 2 ∧
      (∀ d ∈ twoDigits (clampCost lr), 48 ≤ d ∧ d ≤ 57) ∧
      (_b64_encode entropy).length = 22 := by
  have hcl := clampCost_eq lr
  have h4 : 4 ≤ clampCost lr := by rw [hcl]; split_ifs <;> omega
  have h31 : clampCost lr ≤ 31 := by rw [hcl]; split_ifs <;> omega
  refine ⟨?_, h4, h31, ?_, ?_, ?_, rfl, ?_, ?_⟩
  · unfold gensalt _encode_salt
    rw [if_neg (not_not_intro hlen), if_neg (by omega)]
  · intro h; rw [hcl]; split_ifs <;> omega
  · intro h; rw [hcl]; split_ifs <;> omega
  · intro h h'; rw [hcl]; split_ifs <;> omega
  · intro d hd
    have ht : (clampCost lr).toNat ≤ 31 := by omega
    simp only [twoDigits, List.mem_cons, List.not_mem_nil, or_false] at hd
    rcases hd with h' | h' <;> subst h' <;> omega
  · have he := _b64_encode_length entropy
    rw [hlen] at he
    norm_num at he
    exact he

theorem gensalt_clamps_and_formats_witness :
    (List.replicate 16 0).length = 16 ∧
      (gensalt (List.replicate 16 0) 50 =
          BResult.ok ([36, 50, 97, 36] ++ twoDigits (clampCost 50)
            ++ 36 :: _b64_encode (List.replicate 16 0)) ∧
        4 ≤ clampCost 50 ∧ clampCost 50 ≤ 31 ∧
        ((50 : Int) < 4 → clampCost 50 = 4) ∧ ((31 : Int) < 50 → clampCost 50 = 31) ∧
        ((4 : Int) ≤ 50 → (50 : Int) ≤ 31 → clampCost 50 = 50) ∧
        (twoDigits (clampCost 50)).length = 2 ∧
        (∀ d ∈ twoDigits (clampCost 50), 48 ≤ d ∧ d ≤ 57) ∧
        (_b64_encode (List.replicate 16 0)).length = 22) :=
  ⟨by decide, gensalt_clamps_and_formats (List.replicate 16 0) 50 (by decide)⟩

/-- Claim C9: `hashpw` reads nothing but its two arguments - no ambient
state, clock or randomness - so two invocations on the same password and
salt return the identical result (here the same error, since no call
returns a hash; the validation outcome is still a deterministic function
of the inputs). -/
theorem hashpw_deterministic : ∀ password salt : List Nat,
    hashpw password salt = hashpw password salt :=
  fun _ _ => rfl

/-- Claim C10: no execution of `hashpw` returns a hash: every branch is
an error, because the first statement after the validation checks,
`bf = EksBlowfish()` at line 82, names an identifier that is never
defined or imported (line 27 imports only `Blowfish`); the dead code
after it also uses the never-imported module `struct` and assigns into
the immutable tuple it returns.  Concretely, a fully valid salt record
(version 2a, cost 04, a 22-character segment) reaches exactly that
NameError. -/
theorem hashpw_never_returns_hash :
    (∀ password salt : List Nat, ∃ e, hashpw password salt = BResult.error e) ∧
      hashpw [] (mkSalt [50, 97] [48, 52] (List.replicate 22 46))
        = BResult.error BErr.nameError := by
  constructor
  · intro p s
    unfold hashpw
    split
    · exact hashpwChecked_never_ok _ _ _
    · exact ⟨_, rfl⟩
  · decide
